import Mathlib

/-!
Verification development for the `blkmon` hostile-IP monitor.

The definitions below are a shallow embedding, in Lean, of the program's
core data structures and operations:

* the blocklist line parser `insert_blklst_line` and the registry
  operations `insert_ip`, `updt_whois`, `list_grp` of `blk_ipdict.py`
  (including faithful models of the regular expressions `re_ipv4`,
  `re_acl`, `re_addr` and of the scheme/netloc extraction performed by
  Python 2.7's `urlparse`, which that module uses);
* the AA-style balanced binary search tree of `blk_tree.py` with the
  comparison semantics of Google's `ipaddr` network objects, and its
  `insert` / `chk_ip` operations;
* the bulk-whois request construction loop of `blk_main.cymru_chk` and
  the sanity-check retry counter machinery of `blk_main.blklst_Main` /
  `blk_state.bump_ip_prob_cnt`.

Strings are modelled as `List Char` (`Str`), Python's `None`/value results
as `Option`, and the hostile-IP dictionary as an association list.
-/

/-- Strings of the Python program are modelled as lists of characters. -/
abbrev Str := List Char

/-! ## Python string primitives -/

/-- Python whitespace, as used by `str.strip()` and by `\s` in the ASCII
regular expressions of `blk_ipdict.py`. -/
def isPySpace (c : Char) : Bool :=
  c = ' ' || c = '\t' || c = '\n' || c = '\r' || c = '\x0b' || c = '\x0c'

/-- Model of Python `str.strip()`: drop leading and trailing whitespace. -/
def stripL (s : Str) : Str :=
  ((s.dropWhile isPySpace).reverse.dropWhile isPySpace).reverse

/-- Decide whether `p` is a prefix of `s` (Python `str.startswith`). -/
def isPre : Str → Str → Bool
  | [], _ => true
  | _ :: _, [] => false
  | c :: p, d :: s => c = d && isPre p s

/-- Model of the Python substring test `n in h`. -/
def isSub (n : Str) (h : Str) : Bool :=
  isPre n h ||
    match h with
    | [] => false
    | _ :: t => isSub n t

/-- Model of Python `s.split(sep)` for a one-character separator
(no maxsplit): used to read the spec's "fields" of a pipe- or
dot-separated string. -/
def splitAll (sep : Char) : Str → List Str
  | [] => [[]]
  | c :: t =>
    if c = sep then [] :: splitAll sep t
    else
      match splitAll sep t with
      | g :: gs => (c :: g) :: gs
      | [] => [[c]]

/-- Model of Python `s.split(sep, n)` (at most `n` splits). -/
def splitMax (sep : Char) : Nat → Str → List Str
  | 0, s => [s]
  | n + 1, s =>
    let pre := s.takeWhile (fun c => c != sep)
    if pre.length = s.length then [s]
    else pre :: splitMax sep n (s.drop (pre.length + 1))

/-- Lowercase a string (Python `str.lower`, ASCII). -/
def lowerL (s : Str) : Str := s.map Char.toLower

/-- The field separator `cfg.SEP` = `" | "`. -/
def SEPc : Str := " | ".data

/-- Python `cfg.SEP.join([a, b])` for two pieces. -/
def joinSep (a b : Str) : Str := a ++ SEPc ++ b

/-! ## Models of the regular expressions of `blk_ipdict.py` -/

/-- Consume exactly `n` ASCII digits (`\d`) from the front of a string. -/
def digitsN : Nat → Str → Option Str
  | 0, s => some s
  | _ + 1, [] => none
  | n + 1, c :: s => if c.isDigit then digitsN n s else none

/-- All ways of matching `\d{1,3}\.` at the front of a string (the
remainders after each possible match).  The regex engine backtracks over
group lengths, so success of the whole pattern is an existential over
these choices. -/
def grpDot (s : Str) : List Str :=
  [1, 2, 3].filterMap fun n =>
    match digitsN n s with
    | some ('.' :: r) => some r
    | _ => none

/-- Match `\d{1,3}` at the front of a string. -/
def lastGrp (s : Str) : Bool :=
  [1, 2, 3].any fun n => (digitsN n s).isSome

/-- Model of `re_ipv4.match(s)`: the anchored-at-start match of
`(?P<addr>\d{1,3}\.\d{1,3}\.\d{1,3}\.\d{1,3})\s*`.  Note that `match`
does not require the whole string to be consumed, so trailing text after
the fourth digit group is accepted, and digit groups are not range
checked. -/
def ipv4Match (s : Str) : Bool :=
  (grpDot s).any fun r1 =>
    (grpDot r1).any fun r2 =>
      (grpDot r2).any fun r3 => lastGrp r3

/-- The strict notion of "valid IPv4 dotted-quad string" used by the
specification's words: exactly four dot-separated decimal groups of one
to three digits, each between 0 and 255, and nothing else in the
string.  (This is the spec-side definition that `re_ipv4` is compared
against; the code's `re_ipv4.match` is modelled by `ipv4Match`.) -/
def specDottedQuad (s : Str) : Bool :=
  match splitAll '.' s with
  | [a, b, c, d] =>
    [a, b, c, d].all fun g =>
      (!g.isEmpty) && g.all Char.isDigit && decide (g.length ≤ 3) &&
        decide (g.foldl (fun n ch => n * 10 + (ch.toNat - 48)) 0 ≤ 255)
  | _ => false

/-- Literal `"deny"`. -/
def litDeny4 : Str := "deny".data

/-- Literal `"deny "` (the pattern `PAT_ACL`). -/
def litDenySp : Str := "deny ".data

/-- Literal `"ip"`. -/
def litIp : Str := "ip".data

/-- Literal `"host"`. -/
def litHost : Str := "host".data

/-- Literal `"any"`. -/
def litAny : Str := "any".data

/-- Literal `"log"`. -/
def litLog : Str := "log".data

/-- Literal `"http"` (the pattern `PAT_HTTP`). -/
def litHttp : Str := "http".data

/-- Literal `"https"`. -/
def litHttps : Str := "https".data

/-- Literal `"ftp"` (the pattern `PAT_FTP`). -/
def litFtp : Str := "ftp".data

/-- Literal `"//"`. -/
def litSlashSlash : Str := "//".data

/-- Consume an exact literal from the front of a string. -/
def litTest (lit s : Str) : Option Str :=
  if isPre lit s then some (s.drop lit.length) else none

/-- Consume one whitespace character (`\s`). -/
def wsOne : Str → Option Str
  | [] => none
  | c :: t => if isPySpace c then some t else none

/-- Model of `re_acl.match(line)`: the verbose pattern
`deny\s ip\s host\s (?P<addr>\S+)\s any\s log\s* (?P<desc>.*$)`.
Returns the captured `addr` and `desc` groups on success.  Since `\S+`
is followed by `\s`, backtracking over the length of `addr` can never
succeed with anything shorter than the maximal non-space run, so the
greedy match is the unique candidate. -/
def aclMatch (l : Str) : Option (Str × Str) :=
  match litTest litDeny4 l with
  | none => none
  | some r1 =>
    match wsOne r1 with
    | none => none
    | some r2 =>
      match litTest litIp r2 with
      | none => none
      | some r3 =>
        match wsOne r3 with
        | none => none
        | some r4 =>
          match litTest litHost r4 with
          | none => none
          | some r5 =>
            match wsOne r5 with
            | none => none
            | some r6 =>
              let addr := r6.takeWhile fun c => !isPySpace c
              if addr.isEmpty then none
              else
                match wsOne (r6.drop addr.length) with
                | none => none
                | some r7 =>
                  match litTest litAny r7 with
                  | none => none
                  | some r8 =>
                    match wsOne r8 with
                    | none => none
                    | some r9 =>
                      match litTest litLog r9 with
                      | none => none
                      | some r10 => some (addr, r10.dropWhile isPySpace)

/-- Model of `re_addr.match(line)` for a non-empty stripped line: the
pattern `(?P<addr>\S+)\s*(?P<desc>.*$)` always matches, with `addr` the
maximal leading non-space run and `desc` the rest after the following
whitespace run. -/
def addrMatch (l : Str) : Str × Str :=
  let addr := l.takeWhile fun c => !isPySpace c
  (addr, (l.drop addr.length).dropWhile isPySpace)

/-! ## Model of Python 2.7 `urlparse` (scheme and netloc only)

`blk_ipdict.insert_blklst_line` uses only `uri.scheme` and `uri.netloc`
of the parse result, so the model reproduces exactly the scheme/netloc
logic of `urlparse.urlsplit` of Python 2.7, including the
`url[:i] == 'http'` fast path, the trailing-port-number check, and the
`ValueError("Invalid IPv6 URL")` raised on a netloc containing an
unbalanced `[` or `]` bracket. -/

/-- Characters allowed in a URL scheme. -/
def schemeChar (c : Char) : Bool :=
  c.isAlpha || c.isDigit || c = '+' || c = '-' || c = '.'

/-- The netloc of `_splitnetloc`: everything up to the first `/`, `?`
or `#`. -/
def splitNetlocF (s : Str) : Str :=
  s.takeWhile fun c => !(c = '/' || c = '?' || c = '#')

/-- The unbalanced-bracket test that makes `urlsplit` raise
`ValueError("Invalid IPv6 URL")`. -/
def bracketBad (nl : Str) : Bool :=
  nl.contains '[' != nl.contains ']'

/-- Extract the netloc (if the remaining url starts with `//`), raising
on unbalanced brackets; shared by both branches of `urlsplit`. -/
def netlocPart (scheme : Str) (u : Str) : Except Unit (Str × Str) :=
  if isPre litSlashSlash u then
    let nl := splitNetlocF (u.drop 2)
    if bracketBad nl then .error () else .ok (scheme, nl)
  else .ok (scheme, [])

/-- The scheme and netloc computed by Python 2.7's
`urlparse.urlsplit(url)`; `.error ()` models the `ValueError` raised on
an unbalanced bracket in the netloc. -/
def urlSN (url : Str) : Except Unit (Str × Str) :=
  match url.findIdx? (fun c => c = ':') with
  | some i =>
    if i = 0 then netlocPart [] url
    else if url.take i = litHttp then
      let rest := url.drop (i + 1)
      if isPre litSlashSlash rest then
        let nl := splitNetlocF (rest.drop 2)
        if bracketBad nl then .error () else .ok (litHttp, nl)
      else .ok (litHttp, [])
    else if (url.take i).all schemeChar then
      let rest := url.drop (i + 1)
      if rest.isEmpty || !rest.all Char.isDigit then
        netlocPart (lowerL (url.take i)) rest
      else netlocPart [] url
    else netlocPart [] url
  | none => netlocPart [] url

/-! ## The hostile-IP registry (`blk_ipdict.hostileIPs`) -/

/-- One element of the hostile-IP dictionary: the tuple
`(as_tmp, cc_tmp, org_tmp, desc_tmp)` stored by `insert_ip`. -/
structure IpRec where
  asv : Str
  ccv : Str
  orgv : Str
  descv : Str
deriving DecidableEq, Repr

/-- The dictionary `self.ip_dict`, modelled as an association list. -/
abbrev Registry := List (Str × IpRec)

/-- Dictionary lookup `self.ip_dict[ip]`. -/
def lookupD : Registry → Str → Option IpRec
  | [], _ => none
  | (k, r) :: t, ip => if k = ip then some r else lookupD t ip

/-- Python's `ip in self.ip_dict`. -/
def memD (d : Registry) (ip : Str) : Bool := (lookupD d ip).isSome

/-- Dictionary store `self.ip_dict[ip] = r` (replace or append). -/
def setD : Registry → Str → IpRec → Registry
  | [], ip, r => [(ip, r)]
  | (k, q) :: t, ip, r => if k = ip then (ip, r) :: t else (k, q) :: setD t ip r

/-- The merge performed by `insert_ip` on an existing entry: each
non-empty provided field is appended to the stored field with `cfg.SEP`
unless Python's substring test `x in stored` already succeeds (for
`as_` and `cc`, an empty stored field is replaced instead). -/
def mergeRec (r : IpRec) (desc as_ org cc : Str) : IpRec :=
  let asT :=
    if as_.isEmpty then r.asv
    else if r.asv.isEmpty then as_
    else if isSub as_ r.asv then r.asv
    else joinSep r.asv as_
  let ccT :=
    if cc.isEmpty then r.ccv
    else if r.ccv.isEmpty then cc
    else if isSub cc r.ccv then r.ccv
    else joinSep r.ccv cc
  let orgT :=
    if org.isEmpty then r.orgv
    else if isSub org r.orgv then r.orgv
    else joinSep r.orgv org
  let descT :=
    if desc.isEmpty then r.descv
    else if isSub desc r.descv then r.descv
    else joinSep r.descv desc
  ⟨asT, ccT, orgT, descT⟩

/-- Model of `hostileIPs.insert_ip(__ip, desc, as_, org, cc)`: `desc` is
stripped; an existing entry is merged via `mergeRec`; a new entry is
created only when `org` is non-empty and `re_ipv4.match(__ip)` succeeds,
and otherwise the call is rejected with only a log line. -/
def insert_ip (d : Registry) (ip desc as_ org cc : Str) : Registry :=
  let ds := stripL desc
  match lookupD d ip with
  | some r => setD d ip (mergeRec r ds as_ org cc)
  | none =>
    if !org.isEmpty && ipv4Match ip then setD d ip ⟨as_, cc, org, ds⟩
    else d

/-- Model of `hostileIPs.updt_whois(line)`: split the stripped line on
`|` with maxsplit 3; fewer than four parts is the `ValueError` path
(log and return); otherwise merge into an existing entry for the
stripped ip field, or log and drop when the ip is unknown. -/
def updt_whois (d : Registry) (line : Str) : Registry :=
  match splitMax '|' 3 (stripL line) with
  | [a, i, c, ds] =>
    let ip := stripL i
    if memD d ip then insert_ip d ip (stripL ds) (stripL a) [] (stripL c)
    else d
  | _ => d

/-- The ip field selected by a whois line (used to state frame
properties of `updt_whois`). -/
def whoisTarget (line : Str) : Str :=
  match splitMax '|' 3 (stripL line) with
  | [_, i, _, _] => stripL i
  | _ => []

/-- Model of `hostileIPs.list_grp(as_, org, cc)`: the generator yields
the entries whose fields pass the three Python substring filters. -/
def list_grp : Registry → Str → Str → Str → List (Str × IpRec)
  | [], _, _, _ => []
  | (ip, r) :: t, as_, org, cc =>
    if (as_.isEmpty || isSub as_ r.asv) && (org.isEmpty || isSub org r.orgv)
        && (cc.isEmpty || isSub cc r.ccv)
    then (ip, r) :: list_grp t as_ org cc
    else list_grp t as_ org cc

/-- Split a stored field on the full separator `" | "` (Python
`field.split(cfg.SEP)`), scanning left to right. -/
def splitSepAll : Str → List Str
  | [] => [[]]
  | ' ' :: '|' :: ' ' :: rest => [] :: splitSepAll rest
  | c :: t =>
    match splitSepAll t with
    | g :: gs => (c :: g) :: gs
    | [] => [[c]]

/-- Spec-side notion of set membership in a registry field: the stored
string denotes the set of its `cfg.SEP`-separated components, and a
filter value is a member when it equals one of the components.  (Used
to compare `list_grp`'s substring filter with the spec's words.) -/
def specMember (x field : Str) : Bool :=
  if field.isEmpty then false
  else (splitSepAll field).any fun g => g = x

/-! ## The blocklist line parser (`hostileIPs.insert_blklst_line`) -/

/-- The observable outcome of one `insert_blklst_line(line, myorg, f)`
call.  `insertIp ip desc` means the parser reached the call
`self.insert_ip(ip, desc=desc, org=myorg)`; `dnsLookup host desc` means
it reached `dns_lookup_fn(host, False, desc, myorg)`; `dropUrl` and
`dropAcl` are the two silent fall-throughs (an `http`/`ftp` line whose
parsed scheme is not `http`/`https`/`ftp`, and a `deny ` line that does
not match `re_acl`); `unknownFmt` is the final catch-all (whose only
effect is a debug-level log line); `assertErr addr` is the
`AssertionError` raised by `assert (re_ipv4.match(myip))` on the ACL
path; `valueErr` is the `ValueError` raised inside `urlparse`. -/
inductive PRes where
  | blankLine
  | commentLine
  | insertIp (ip desc : Str)
  | dnsLookup (host desc : Str)
  | dropUrl
  | dropAcl
  | unknownFmt
  | assertErr (addr : Str)
  | valueErr
deriving DecidableEq, Repr

/-- Model of `hostileIPs.insert_blklst_line(line, myorg, dns_lookup_fn)`,
reduced to its control flow: which action the call performs on the
stripped line.  The `myorg` tag and the callback are carried unchanged
into the resulting action by the code and do not influence the
branching, so they are not parameters of the model. -/
def insert_blklst_line (line : Str) : PRes :=
  let l := stripL line
  match l with
  | [] => .blankLine
  | c :: _ =>
    if c = '#' ∨ c = '!' then .commentLine
    else if isPre litHttp l || isPre litFtp l then
      match urlSN l with
      | .error _ => .valueErr
      | .ok (sch, nl) =>
        if sch = litHttp ∨ sch = litHttps ∨ sch = litFtp then
          if ipv4Match nl then .insertIp nl (stripL l)
          else .dnsLookup nl (stripL l)
        else .dropUrl
    else if isPre litDenySp l then
      match aclMatch l with
      | some (addr, ds) =>
        if ipv4Match addr then .insertIp addr ds else .assertErr addr
      | none => .dropAcl
    else
      let m := addrMatch l
      if m.1.isEmpty then .unknownFmt
      else if ipv4Match m.1 then .insertIp m.1 m.2
      else .dnsLookup m.1 m.2

/-- Whether a parser outcome is an exception escaping the component. -/
def PRes.isRaise : PRes → Bool
  | .assertErr _ => true
  | .valueErr => true
  | _ => false

/-- Whether a parser outcome is a registry insert. -/
def PRes.isIns : PRes → Bool
  | .insertIp _ _ => true
  | _ => false

/-- Whether a parser outcome schedules a DNS lookup. -/
def PRes.isDns : PRes → Bool
  | .dnsLookup _ _ => true
  | _ => false

/-! ## The prefix tree (`blk_tree.bbstree`) -/

/-- An IPv4 prefix, as held in a Google `ipaddr.IPNetwork` object:
`net` is the (masked) network address as a 32-bit number and `len` the
prefix length. -/
structure Pfx where
  net : Nat
  len : Nat
deriving DecidableEq, Repr

/-- The integer netmask of a prefix (`ipaddr`'s `netmask`). -/
def maskOf (p : Pfx) : Nat := 2 ^ 32 - 2 ^ (32 - p.len)

/-- The broadcast (highest) address of a prefix. -/
def Pfx.hi (p : Pfx) : Nat := p.net + (2 ^ (32 - p.len) - 1)

/-- A well-formed IPv4 prefix: length at most 32, network address
in range and aligned on the prefix boundary. -/
def validPfx (p : Pfx) : Prop :=
  p.len ≤ 32 ∧ p.net < 2 ^ 32 ∧ p.net % 2 ^ (32 - p.len) = 0

instance : DecidablePred validPfx := fun p => by
  unfold validPfx; infer_instance

/-- Containment of an address in a prefix, as computed by `ipaddr`'s
`IPNetwork(my_ip) in tnode.key`: the query address (a /32 network whose
network and broadcast both equal `x`) lies between the prefix's network
and broadcast addresses. -/
def containsIp (p : Pfx) (x : Nat) : Bool :=
  decide (p.net ≤ x) && decide (x ≤ p.hi)

/-- The `ipaddr` comparison `a > b` on two network objects: by network
address, then by netmask. -/
def netGt (a b : Pfx) : Bool :=
  decide (b.net < a.net) || (decide (a.net = b.net) && decide (maskOf b < maskOf a))

/-- The `ipaddr` equality `a == b` on two network objects: equal
network address and netmask. -/
def netEq (a b : Pfx) : Bool :=
  decide (a.net = b.net) && decide (maskOf a = maskOf b)

/-- The comparison `IPNetwork(my_ip) > tnode.key` used by `__chk_ip`:
the query is a /32 network with network address `x` and netmask
`2^32 - 1`. -/
def qGt (x : Nat) (p : Pfx) : Bool :=
  decide (p.net < x) || (decide (x = p.net) && decide (maskOf p < 2 ^ 32 - 1))

/-- The binary tree of `blk_tree.py`: `nil` is the `NIL_NODE` sentinel,
a node carries its Andersson level, the subnet key, the ASN value and
the two subtrees (`subs[0]`, `subs[1]`).  The `lastinsert` bookkeeping
of the Python class only serves `instest`, which the program never
calls, and is not modelled. -/
inductive BTree where
  | nil
  | node (level : Nat) (key : Pfx) (value : Str) (l r : BTree)
deriving DecidableEq, Repr

/-- The level of a tree node (`NIL_NODE.level == 0`). -/
def BTree.levelOf : BTree → Nat
  | .nil => 0
  | .node lv _ _ _ _ => lv

/-- Walker's skew (`bbstree.__skew`): remove a left horizontal link by
rotating right when the left child has the same level. -/
def skew : BTree → BTree
  | .nil => .nil
  | .node lv k v l r =>
    match l with
    | .node llv lk lval ll lr =>
      if llv = lv then .node llv lk lval ll (.node lv k v lr r)
      else .node lv k v (.node llv lk lval ll lr) r
    | .nil => .node lv k v .nil r

/-- Walker's split (`bbstree.__split`): remove consecutive horizontal
links by rotating left and promoting when the right-right grandchild
has the same level. -/
def splitN : BTree → BTree
  | .nil => .nil
  | .node lv k v l r =>
    match r with
    | .node rlv rk rv rl rr =>
      if rr.levelOf = lv then .node (rlv + 1) rk rv (.node lv k v l rl) rr
      else .node lv k v l (.node rlv rk rv rl rr)
    | .nil => .node lv k v l .nil

/-- The recursive insert `bbstree.__insert`: on an equal key the value
is overwritten; otherwise the key descends to the side chosen by the
`ipaddr` comparison `k > tnode.key`, a new level-1 leaf being created
when that side is the sentinel, and skew/split rebalance the modified
child. -/
def insAux : BTree → Pfx → Str → BTree
  | .nil, k, v => .node 1 k v .nil .nil
  | .node lv key val l r, k, v =>
    if netEq k key then .node lv key v l r
    else if netGt k key then
      .node lv key val l
        (if r = .nil then .node 1 k v .nil .nil else splitN (skew (insAux r k v)))
    else
      .node lv key val
        (if l = .nil then .node 1 k v .nil .nil else splitN (skew (insAux l k v))) r

/-- The public `bbstree.insert(k, v)`: the empty tree gets its first
node, otherwise the root is rebalanced after the recursive insert. -/
def insertT (t : BTree) (k : Pfx) (v : Str) : BTree :=
  if t = .nil then .node 1 k v .nil .nil
  else splitN (skew (insAux t k v))

/-- Build a tree by inserting a list of (prefix, ASN) pairs in order,
as `blk_rteserv` does with the collapsed subnet list. -/
def buildT (ps : List (Pfx × Str)) : BTree :=
  ps.foldl (fun t pv => insertT t pv.1 pv.2) .nil

/-- The recursive lookup `bbstree.__chk_ip` (and `chk_ip`, whose empty
tree case coincides with the sentinel case here): return the node whose
key contains the query address, descending by the `ipaddr` comparison
`IPNetwork(my_ip) > tnode.key`.  The result is the (key, value) pair of
the found node. -/
def chk_ip : BTree → Nat → Option (Pfx × Str)
  | .nil, _ => none
  | .node _ k v l r, x =>
    if containsIp k x then some (k, v)
    else if qGt x k then chk_ip r x
    else chk_ip l x

/-- In-order list of the (key, value) pairs of a tree. -/
def nodesOf : BTree → List (Pfx × Str)
  | .nil => []
  | .node _ k v l r => nodesOf l ++ (k, v) :: nodesOf r

/-- Strict interval order on prefixes: `p` lies entirely below `q`. -/
def pBelow (p q : Pfx) : Prop := p.hi < q.net

/-- Two prefixes with disjoint address ranges. -/
def pDisj (p q : Pfx) : Prop := pBelow p q ∨ pBelow q p

/-- The binary-search-tree invariant for the interval order: every key
in a left subtree lies entirely below the node key, every key in a
right subtree entirely above. -/
def ordT : BTree → Prop
  | .nil => True
  | .node _ k _ l r =>
    ordT l ∧ ordT r ∧ (∀ kv ∈ nodesOf l, pBelow kv.1 k) ∧
      ∀ kv ∈ nodesOf r, pBelow k kv.1

/-! ## The bulk-whois request loop (`blk_main.cymru_chk`) -/

/-- Configuration value `cfg.cyrmu_max` (the misspelling is the
program's). -/
def cyrmu_max : Nat := 20

/-- The candidate-collection loop of `cymru_chk`: walk the dictionary
keys in order, keep the ips for which the tree filter `f` (that is,
`blk_check_ip(myip, my_tree)`) returns an ASN, and `break` out of the
loop as soon as the counter `n` exceeds `cfg.cyrmu_max` before being
incremented for the current hit. -/
def cymruLoop (f : Str → Option Str) : List Str → Nat → List Str → Nat × List Str
  | [], n, acc => (n, acc)
  | ip :: rest, n, acc =>
    match f ip with
    | none => cymruLoop f rest n acc
    | some _ =>
      if n > cyrmu_max then (n, acc)
      else cymruLoop f rest (n + 1) (acc ++ [ip])

/-- The action taken at the end of `cymru_chk`: either submit the
collected request body (modelled by its list of ip lines) to
`cymru_get_whois`, or skip the whois client and set the
"No hostile IPs found in ASNs of interest" status. -/
inductive CymruAct where
  | submit (ips : List Str)
  | statusNoHostile
deriving DecidableEq, Repr

/-- Model of `blk_main.cymru_chk` after DNS quiescence: collect the
filtered ips, then submit if and only if at least one hit was found. -/
def cymru_chk (f : Str → Option Str) (ips : List Str) : CymruAct :=
  let r := cymruLoop f ips 0 []
  if r.1 > 0 then .submit r.2 else .statusNoHostile

/-! ## The sanity-check retry machinery (`blk_state`, `blk_main`) -/

/-- Configuration value `cfg.ip_prob_max`. -/
def ip_prob_max : Nat := 3

/-- Configuration value `cfg.ip_prob_retry` (seconds). -/
def ip_prob_retry : Nat := 240

/-- Configuration value `cfg.sanity_as` (the shipped placeholder). -/
def sanity_as : Str := "nnnn".data

/-- Model of `BlkState.bump_ip_prob_cnt`: increment the failure
counter; when it has reached `cfg.ip_prob_max` reset it to zero and
report `True` (counter exceeded). -/
def bump_ip_prob_cnt (cnt : Nat) : Bool × Nat :=
  let c := cnt + 1
  if ip_prob_max ≤ c then (true, 0) else (false, c)

/-- The action `blklst_Main` takes after its sanity check.
`startIngest` covers resetting the counter, reinitialising the
dictionary and calling `read_blklsts`; `resched delay` is the
`reactor.callLater(cfg.ip_prob_retry, blklst_Main, bstate)` path;
`rebuildNext` is the branch that calls `blk_rteserv_read(bstate)` (a
name `blk_main.py` never imports, so in the Python program this branch
raises `NameError` after the counter has already been reset). -/
inductive MainAct where
  | startIngest
  | resched (delay : Nat)
  | rebuildNext
deriving DecidableEq, Repr

/-- Model of the sanity-check dispatch of `blk_main.blklst_Main`:
`chkAs` is the result of `blk_check_ip(cfg.sanity_ip, tree)` and `cnt`
the current failure counter; the result is the action taken and the
counter afterwards. -/
def blklst_Main (chkAs : Option Str) (cnt : Nat) : MainAct × Nat :=
  if chkAs = some sanity_as then (.startIngest, 0)
  else
    let bc := bump_ip_prob_cnt cnt
    if bc.1 then (.rebuildNext, bc.2) else (.resched ip_prob_retry, bc.2)

instance (a b : Pfx) : Decidable (pBelow a b) := by unfold pBelow; infer_instance

instance (a b : Pfx) : Decidable (pDisj a b) := by unfold pDisj; infer_instance

/-- One call to `insert_ip` with all its arguments, used to state how a
batch of inserts acts on the registry. -/
structure InsCall where
  ip : Str
  dsc : Str
  asn : Str
  org : Str
  cc : Str
deriving DecidableEq, Repr

/-- Perform a list of `insert_ip` calls in order. -/
def runInserts (d : Registry) (l : List InsCall) : Registry :=
  l.foldl (fun d c => insert_ip d c.ip c.dsc c.asn c.org c.cc) d

/-- Twenty-five distinct one-character dictionary keys, a concrete
registry enumeration for exercising the `cymru_chk` cap. -/
def ipList25 : List Str := (List.range 25).map fun n => [Char.ofNat (65 + n)]

/-! ## Lemmas about the registry primitives -/

theorem lookupD_setD_self (d : Registry) (k : Str) (r : IpRec) :
    lookupD (setD d k r) k = some r := by
  induction d with
  | nil => simp [setD, lookupD]
  | cons h t ih =>
    obtain ⟨k', q⟩ := h
    by_cases hk : k' = k <;> simp [setD, lookupD, hk, ih]

theorem lookupD_setD_ne (d : Registry) (k j : Str) (r : IpRec) (h : j ≠ k) :
    lookupD (setD d k r) j = lookupD d j := by
  induction d with
  | nil => simp [setD, lookupD, Ne.symm h]
  | cons hd t ih =>
    obtain ⟨k', q⟩ := hd
    by_cases hk : k' = k
    · subst hk
      simp [setD, lookupD, Ne.symm h]
    · simp [setD, lookupD, hk, ih]

theorem memD_setD (d : Registry) (k j : Str) (r : IpRec) :
    memD (setD d k r) j = true ↔ memD d j = true ∨ j = k := by
  by_cases h : j = k
  · subst h
    simp [memD, lookupD_setD_self]
  · simp [memD, lookupD_setD_ne d k j r h, h]

theorem memD_of_lookupD {d : Registry} {k : Str} {r : IpRec}
    (h : lookupD d k = some r) : memD d k = true := by
  simp [memD, h]

theorem memD_insert_ip (d : Registry) (ip desc as_ org cc j : Str) :
    memD (insert_ip d ip desc as_ org cc) j = true ↔
      memD d j = true ∨ (j = ip ∧ org ≠ [] ∧ ipv4Match ip = true) := by
  unfold insert_ip
  cases hl : lookupD d ip with
  | some r =>
    simp only [memD_setD]
    constructor
    · rintro (h | h)
      · exact Or.inl h
      · subst h
        exact Or.inl (memD_of_lookupD hl)
    · rintro (h | ⟨h, _⟩)
      · exact Or.inl h
      · exact Or.inr h
  | none =>
    by_cases hc : (!org.isEmpty && ipv4Match ip) = true
    · have hc' := hc
      rw [Bool.and_eq_true] at hc'
      have horg : org ≠ [] := by simpa using hc'.1
      have hip : ipv4Match ip = true := hc'.2
      simp only [hc, if_true, memD_setD]
      constructor
      · rintro (h | h)
        · exact Or.inl h
        · exact Or.inr ⟨h, horg, hip⟩
      · rintro (h | ⟨h, _⟩)
        · exact Or.inl h
        · exact Or.inr h
    · simp only [hc, if_false]
      constructor
      · exact Or.inl
      · rintro (h | ⟨h1, h2, h3⟩)
        · exact h
        · exact absurd (by simp [List.isEmpty_iff, h2, h3]) hc

theorem memD_runInserts (l : List InsCall) (d : Registry) (j : Str) :
    memD (runInserts d l) j = true ↔
      memD d j = true ∨ ∃ c ∈ l, c.ip = j ∧ c.org ≠ [] ∧ ipv4Match c.ip = true := by
  induction l generalizing d with
  | nil => simp [runInserts]
  | cons c t ih =>
    have step : runInserts d (c :: t) =
        runInserts (insert_ip d c.ip c.dsc c.asn c.org c.cc) t := rfl
    rw [step, ih, memD_insert_ip]
    constructor
    · rintro ((h | ⟨h1, h2, h3⟩) | ⟨c', hc', h'⟩)
      · exact Or.inl h
      · exact Or.inr ⟨c, List.mem_cons_self c t, h1.symm, h2, h3⟩
      · exact Or.inr ⟨c', List.mem_cons_of_mem c hc', h'⟩
    · rintro (h | ⟨c', hc', h'⟩)
      · exact Or.inl (Or.inl h)
      · rcases List.mem_cons.mp hc' with hh | hh
        · subst hh
          exact Or.inl (Or.inr ⟨h'.1.symm, h'.2⟩)
        · exact Or.inr ⟨c', hh, h'⟩

/-! ## Claim C3: registry merge commutativity -/

/-- C3 (counterexample): two `insert_ip` calls for the same ip with
descriptions `"a"` and `"b"` (both with org `"o"`) produce different
registry contents in the two orders — the desc field ends up as the
string `"a | b"` in one order and `"b | a"` in the other, so the final
record is not independent of insertion order. -/
theorem insert_ip_not_commutative_cex :
    insert_ip (insert_ip [] ("1.2.3.4".data) ("a".data) [] ("o".data) [])
        ("1.2.3.4".data) ("b".data) [] ("o".data) [] ≠
      insert_ip (insert_ip [] ("1.2.3.4".data) ("b".data) [] ("o".data) [])
        ("1.2.3.4".data) ("a".data) [] ("o".data) [] := by decide

/-- C3 (amended): what is invariant under permuting a fixed list of
`insert_ip` calls is the set of registry keys — a key is present after
the batch exactly when it was present before or some call supplies it
with a non-empty org and an address accepted by `re_ipv4` — while the
records themselves are order-dependent separator-joined strings. -/
theorem insert_ip_keys_perm (l1 l2 : List InsCall) (h : l1.Perm l2)
    (d : Registry) (j : Str) :
    memD (runInserts d l1) j = memD (runInserts d l2) j := by
  have hiff : memD (runInserts d l1) j = true ↔ memD (runInserts d l2) j = true := by
    rw [memD_runInserts, memD_runInserts]
    apply or_congr Iff.rfl
    constructor
    · rintro ⟨c, hc, hp⟩
      exact ⟨c, h.mem_iff.mp hc, hp⟩
    · rintro ⟨c, hc, hp⟩
      exact ⟨c, h.mem_iff.mpr hc, hp⟩
  cases h1 : memD (runInserts d l1) j <;> cases h2 : memD (runInserts d l2) j <;>
    simp_all

/-- Witness for `insert_ip_keys_perm` at a concrete pair of permuted
insert batches. -/
theorem insert_ip_keys_perm_wit :
    memD (runInserts []
        [⟨"1.2.3.4".data, "a".data, [], "o".data, []⟩,
         ⟨"1.2.3.4".data, "b".data, [], "o".data, []⟩]) ("1.2.3.4".data) =
      memD (runInserts []
        [⟨"1.2.3.4".data, "b".data, [], "o".data, []⟩,
         ⟨"1.2.3.4".data, "a".data, [], "o".data, []⟩]) ("1.2.3.4".data) :=
  insert_ip_keys_perm _ _ (List.Perm.swap _ _ _) [] _

/-! ## Claim C5: new-record precondition -/

/-- C5 (counterexample): `insert_ip` on a fresh key `"1.2.3.4x"` with a
non-empty org creates a record even though that key is not a valid IPv4
dotted-quad — `re_ipv4.match` only anchors at the start of the string,
so trailing junk is accepted and the claimed "every key is a valid IPv4
dotted-quad" fails. -/
theorem insert_ip_new_key_cex :
    memD (insert_ip [] ("1.2.3.4x".data) [] [] ("o".data) []) ("1.2.3.4x".data) = true ∧
      specDottedQuad ("1.2.3.4x".data) = false := by decide

/-- C5 (amended): for a key not yet in the registry, a record is
created if and only if the org is non-empty and the key matches the
permissive anchored pattern `re_ipv4` (`\d{1,3}(\.\d{1,3}){3}` at the
start of the string, octets unchecked, trailing text allowed); when the
precondition fails the registry is returned unchanged. -/
theorem insert_ip_new_key_spec (d : Registry) (ip desc as_ org cc : Str)
    (hnew : memD d ip = false) :
    (memD (insert_ip d ip desc as_ org cc) ip = true ↔ org ≠ [] ∧ ipv4Match ip = true) ∧
      (¬(org ≠ [] ∧ ipv4Match ip = true) → insert_ip d ip desc as_ org cc = d) := by
  have hl : lookupD d ip = none := by
    cases hx : lookupD d ip with
    | none => rfl
    | some r => simp [memD, hx] at hnew
  constructor
  · rw [memD_insert_ip]
    simp [memD, hl]
  · intro hno
    have hb : (!org.isEmpty && ipv4Match ip) = false := by
      rcases Decidable.em (org = []) with he | he
      · simp [he]
      · cases hi : ipv4Match ip
        · simp [hi]
        · exact absurd ⟨he, hi⟩ hno
    simp [insert_ip, hl, hb]

/-- Witness for `insert_ip_new_key_spec`: a fresh valid key with
non-empty org is created. -/
theorem insert_ip_new_key_spec_wit :
    memD (insert_ip [] ("1.2.3.4".data) [] [] ("o".data) []) ("1.2.3.4".data) = true :=
  (insert_ip_new_key_spec [] ("1.2.3.4".data) [] [] ("o".data) [] (by decide)).1.mpr
    (by decide)

/-! ## Claim C9: filtered enumeration semantics -/

/-- C9 (counterexample): `list_grp` with asn filter `"123"` yields the
entry whose stored asn field is `"1234"`, although `"123"` is not a
member of that record's asn set — the filter is a substring test, so a
filter value that is merely a substring of a stored member does match,
contrary to the claim. -/
theorem list_grp_substring_cex :
    list_grp [(("9.9.9.9".data), ⟨("1234".data), [], ("o".data), []⟩)]
        ("123".data) [] [] =
      [(("9.9.9.9".data), ⟨("1234".data), [], ("o".data), []⟩)] ∧
      specMember ("123".data) ("1234".data) = false := by decide

/-- C9 (amended): `list_grp` yields exactly the (ip, record) pairs for
which each provided (non-empty) filter value passes the Python
substring test `in` against the corresponding stored field string — not
set membership, so substrings of stored members match too. -/
theorem list_grp_mem_iff (d : Registry) (as_ org cc : Str) (x : Str × IpRec) :
    x ∈ list_grp d as_ org cc ↔ x ∈ d ∧
      ((as_.isEmpty || isSub as_ x.2.asv) && (org.isEmpty || isSub org x.2.orgv)
        && (cc.isEmpty || isSub cc x.2.ccv)) = true := by
  induction d with
  | nil => simp [list_grp]
  | cons hd t ih =>
    obtain ⟨ip, r⟩ := hd
    by_cases hc : ((as_.isEmpty || isSub as_ r.asv) && (org.isEmpty || isSub org r.orgv)
        && (cc.isEmpty || isSub cc r.ccv)) = true
    · simp only [list_grp, hc, if_true, List.mem_cons, ih]
      constructor
      · rintro (h | h)
        · subst h
          exact ⟨Or.inl rfl, hc⟩
        · exact ⟨Or.inr h.1, h.2⟩
      · rintro ⟨h1 | h1, h2⟩
        · exact Or.inl h1
        · exact Or.inr ⟨h1, h2⟩
    · rw [list_grp, if_neg hc, ih]
      constructor
      · rintro ⟨h1, h2⟩
        exact ⟨List.mem_cons_of_mem _ h1, h2⟩
      · rintro ⟨h1, h2⟩
        rcases List.mem_cons.mp h1 with hh | hh
        · subst hh
          exact absurd h2 hc
        · exact ⟨hh, h2⟩

/-- Witness for `list_grp_mem_iff`: the substring filter `"123"`
admits the record whose asn field is `"1234"`. -/
theorem list_grp_mem_iff_wit :
    (("9.9.9.9".data, (⟨"1234".data, [], "o".data, []⟩ : IpRec)) ∈
        list_grp [(("9.9.9.9".data), ⟨("1234".data), [], ("o".data), []⟩)]
          ("123".data) [] []) :=
  (list_grp_mem_iff _ _ _ _ _).mpr (by decide)

/-! ## Lemmas about `stripL` -/

theorem dwHead {p : Char → Bool} {l : Str} {c : Char} {cs : Str}
    (h : List.dropWhile p l = c :: cs) : p c = false := by
  induction l with
  | nil => simp [List.dropWhile] at h
  | cons a t ih =>
    rw [List.dropWhile_cons] at h
    by_cases hp : p a
    · rw [if_pos hp] at h
      exact ih h
    · rw [if_neg hp] at h
      cases h
      simpa using hp

theorem dwIdem (p : Char → Bool) (l : Str) :
    List.dropWhile p (List.dropWhile p l) = List.dropWhile p l := by
  cases h : List.dropWhile p l with
  | nil => simp
  | cons c cs =>
    have hc := dwHead h
    simp [List.dropWhile_cons, hc]

theorem dwSuffix (p : Char → Bool) (l : Str) : ∃ u, u ++ List.dropWhile p l = l := by
  induction l with
  | nil => exact ⟨[], rfl⟩
  | cons a t ih =>
    by_cases hp : p a
    · obtain ⟨u, hu⟩ := ih
      exact ⟨a :: u, by simp [List.dropWhile_cons, hp, hu]⟩
    · exact ⟨[], by simp [List.dropWhile_cons, hp]⟩

theorem stripL_prefix (s : Str) : ∃ t, stripL s ++ t = s.dropWhile isPySpace := by
  obtain ⟨u, hu⟩ := dwSuffix isPySpace (s.dropWhile isPySpace).reverse
  refine ⟨u.reverse, ?_⟩
  have := congrArg List.reverse hu
  simpa [stripL] using this

theorem stripL_head_not_space {s : Str} {c : Char} {cs : Str}
    (h : stripL s = c :: cs) : isPySpace c = false := by
  obtain ⟨t, ht⟩ := stripL_prefix s
  rw [h] at ht
  exact dwHead ht.symm

theorem stripL_idem (s : Str) : stripL (stripL s) = stripL s := by
  have hstep : List.dropWhile isPySpace (stripL s) = stripL s := by
    cases h : stripL s with
    | nil => simp
    | cons c cs =>
      have hc := stripL_head_not_space h
      simp [List.dropWhile_cons, hc]
  show ((List.dropWhile isPySpace (stripL s)).reverse.dropWhile isPySpace).reverse = stripL s
  rw [hstep]
  have hrev : (stripL s).reverse =
      List.dropWhile isPySpace (s.dropWhile isPySpace).reverse := by
    simp [stripL]
  rw [hrev, dwIdem, ← hrev]
  simp

/-! ## Claim C10: whois enrichment never touches org fields -/

/-- C10: processing any whois line leaves the org field of every
registry record unchanged, and every record other than the one for the
line's (stripped) ip field is untouched entirely — `updt_whois` calls
`insert_ip` with the default empty org, so the merge skips the org
branch, and only the matched key is rewritten. -/
theorem updt_whois_org_frame (d : Registry) (line : Str) :
    (∀ j, (lookupD (updt_whois d line) j).map IpRec.orgv =
        (lookupD d j).map IpRec.orgv) ∧
      ∀ j, j ≠ whoisTarget line → lookupD (updt_whois d line) j = lookupD d j := by
  unfold updt_whois whoisTarget
  cases hsp : splitMax '|' 3 (stripL line) with
  | nil => exact ⟨fun j => rfl, fun j _ => rfl⟩
  | cons a t1 =>
    cases t1 with
    | nil => exact ⟨fun j => rfl, fun j _ => rfl⟩
    | cons i t2 =>
      cases t2 with
      | nil => exact ⟨fun j => rfl, fun j _ => rfl⟩
      | cons c t3 =>
        cases t3 with
        | nil => exact ⟨fun j => rfl, fun j _ => rfl⟩
        | cons ds t4 =>
          cases t4 with
          | cons e t5 => exact ⟨fun j => rfl, fun j _ => rfl⟩
          | nil =>
            by_cases hm : memD d (stripL i) = true
            · obtain ⟨r, hr⟩ : ∃ r, lookupD d (stripL i) = some r := by
                simpa [memD, Option.isSome_iff_exists] using hm
              have hins : insert_ip d (stripL i) (stripL ds) (stripL a) [] (stripL c) =
                  setD d (stripL i) (mergeRec r (stripL (stripL ds)) (stripL a) [] (stripL c)) := by
                simp [insert_ip, hr]
              constructor
              · intro j
                simp only [hm, if_true, hins]
                by_cases hj : j = stripL i
                · subst hj
                  rw [lookupD_setD_self, hr]
                  simp [mergeRec]
                · rw [lookupD_setD_ne _ _ _ _ hj]
              · intro j hj
                simp only [hm, if_true, hins]
                exact lookupD_setD_ne _ _ _ _ hj
            · simp only [hm, if_false]
              exact ⟨fun j => rfl, fun j _ => rfl⟩

/-- Witness for `updt_whois_org_frame` at a concrete registry and
whois line. -/
theorem updt_whois_org_frame_wit :
    (lookupD
        (updt_whois [(("198.51.100.9".data), ⟨[], [], ("dshield".data), []⟩)]
          ("64500 | 198.51.100.9 | US | ExampleNet".data))
        ("198.51.100.9".data)).map IpRec.orgv =
      (lookupD [(("198.51.100.9".data), ⟨[], [], ("dshield".data), []⟩)]
        ("198.51.100.9".data)).map IpRec.orgv :=
  (updt_whois_org_frame _ _).1 _

/-! ## Claim C6: whois merge behavior -/

/-- C6 (counterexample): a whois line with four `|` separators splits
into five pipe-separated fields, so by the claim it should be logged
and leave the registry unchanged; but `split('|', 3)` caps at four
parts (the fourth absorbing the extra pipes), so the line is merged and
the registry changes. -/
theorem updt_whois_extra_pipe_cex :
    (splitAll '|' (stripL ("a | 1.2.3.4 | us | d | e".data))).length = 5 ∧
      updt_whois [(("1.2.3.4".data), ⟨[], [], ("o".data), []⟩)]
          ("a | 1.2.3.4 | us | d | e".data) ≠
        [(("1.2.3.4".data), ⟨[], [], ("o".data), []⟩)] := by decide

/-- C6 (amended): `updt_whois` splits the stripped line on `|` with
maxsplit 3.  When that does not yield exactly four parts (i.e. the line
has fewer than three pipes) the registry is unchanged; with four parts
`asn | ip | cc | desc` (desc absorbing any further pipes), a known
(trimmed) ip gets those three fields merged into its record and no
other record changes, while an unknown ip leaves the registry
unchanged. -/
theorem updt_whois_spec (d : Registry) (line : Str) :
    ((splitMax '|' 3 (stripL line)).length ≠ 4 → updt_whois d line = d) ∧
      ∀ a i c ds, splitMax '|' 3 (stripL line) = [a, i, c, ds] →
        (memD d (stripL i) = false → updt_whois d line = d) ∧
          ∀ r, lookupD d (stripL i) = some r →
            updt_whois d line =
                setD d (stripL i) (mergeRec r (stripL ds) (stripL a) [] (stripL c)) ∧
              ∀ j, j ≠ stripL i → lookupD (updt_whois d line) j = lookupD d j := by
  constructor
  · intro hlen
    unfold updt_whois
    cases hsp : splitMax '|' 3 (stripL line) with
    | nil => rfl
    | cons a t1 =>
      cases t1 with
      | nil => rfl
      | cons i t2 =>
        cases t2 with
        | nil => rfl
        | cons c t3 =>
          cases t3 with
          | nil => rfl
          | cons ds t4 =>
            cases t4 with
            | cons e t5 => rfl
            | nil => exact absurd (by rw [hsp]; rfl) hlen
  · intro a i c ds hsp
    have hupd : updt_whois d line =
        (if memD d (stripL i) then
          insert_ip d (stripL i) (stripL ds) (stripL a) [] (stripL c)
        else d) := by
      unfold updt_whois
      rw [hsp]
    constructor
    · intro hm
      rw [hupd, hm]
      rfl
    · intro r hr
      have hm : memD d (stripL i) = true := memD_of_lookupD hr
      have hins : updt_whois d line =
          setD d (stripL i) (mergeRec r (stripL ds) (stripL a) [] (stripL c)) := by
        rw [hupd, hm]
        simp [insert_ip, hr, stripL_idem]
      exact ⟨hins, fun j hj => by rw [hins, lookupD_setD_ne _ _ _ _ hj]⟩

/-- Witness for `updt_whois_spec`: a pipe-free line leaves an empty
registry unchanged. -/
theorem updt_whois_spec_wit :
    updt_whois [] ("bad line".data) = [] :=
  (updt_whois_spec [] ("bad line".data)).1 (by decide)

/-! ## Claim C7: bulk-whois request cap (code bug) -/

/-- C7 (evaluation at the failing input): with 22 or more registry ips
all passing the tree filter, the request built by `cymru_chk` contains
`cyrmu_max + 1 = 21` ip lines — the loop checks `n > cfg.cyrmu_max`
before incrementing `n` for the current hit, so one ip too many is
submitted, contrary to the documented cap; and with zero hits the
whois client is skipped in favour of the "no hostile IPs" status. -/
theorem cymru_chk_over_cap :
    (cymruLoop (fun _ => some ("nnn1".data)) ipList25 0 []).2.length = cyrmu_max + 1 ∧
      cymru_chk (fun _ => some ("nnn1".data)) ipList25 =
        .submit ((List.range (cyrmu_max + 1)).map fun n => [Char.ofNat (65 + n)]) ∧
      cymru_chk (fun _ => none) ipList25 = .statusNoHostile := by decide

/-! ## Claim C8: sanity-check retry counter (code bug) -/

/-- C8 (evaluation of the retry machine): starting from counter 0 with
`ip_prob_max = 3`, the first two sanity failures reschedule the ingest
after `ip_prob_retry` seconds with counters 1 and 2; the third failure
resets the counter to 0 and takes the rebuild branch — which in
`blk_main.py` calls `blk_rteserv_read`, a name that module never
imports, so the Python program raises `NameError` there instead of
refreshing the route server; a successful sanity check resets the
counter and starts the ingest. -/
theorem blklst_Main_counter_eval :
    blklst_Main none 0 = (.resched ip_prob_retry, 1) ∧
      blklst_Main none 1 = (.resched ip_prob_retry, 2) ∧
      blklst_Main none 2 = (.rebuildNext, 0) ∧
      blklst_Main (some sanity_as) 2 = (.startIngest, 0) ∧
      blklst_Main (some ("other".data)) 2 = (.rebuildNext, 0) := by decide

/-! ## Lemmas about the parser guards -/

theorem litHttp_expand : litHttp = ['h', 't', 't', 'p'] := rfl

theorem litFtp_expand : litFtp = ['f', 't', 'p'] := rfl

theorem litDenySp_expand : litDenySp = ['d', 'e', 'n', 'y', ' '] := rfl

theorem litDeny4_expand : litDeny4 = ['d', 'e', 'n', 'y'] := rfl

theorem isPre_head {d : Char} {p : Str} {c : Char} {cs : Str}
    (h : isPre (d :: p) (c :: cs) = true) : d = c := by
  rw [isPre, Bool.and_eq_true] at h
  simpa using h.1

theorem isPre_cons_ne {d : Char} {p : Str} {c : Char} {cs : Str}
    (h : d ≠ c) : isPre (d :: p) (c :: cs) = false := by
  rw [isPre]
  simp [h]

theorem aclMatch_nil : aclMatch [] = none := rfl

theorem aclMatch_head_ne {c : Char} {cs : Str} (h : c ≠ 'd') :
    aclMatch (c :: cs) = none := by
  unfold aclMatch
  have hlit : litTest litDeny4 (c :: cs) = none := by
    unfold litTest
    rw [litDeny4_expand, isPre_cons_ne (Ne.symm h)]
    simp
  rw [hlit]

/-! ## Claim C2: the parser never raises -/

/-- C2 (counterexample): the line
`deny ip host evil.example.com any log x` matches `re_acl` with a
non-IPv4 host field, so `insert_blklst_line` hits
`assert (re_ipv4.match(myip))` and an `AssertionError` escapes the
component, contrary to the claim (and precisely on the class of lines
the claim singles out). -/
theorem parser_raises_cex :
    (insert_blklst_line ("deny ip host evil.example.com any log x".data)).isRaise
      = true := by decide

/-- C2 (amended): `insert_blklst_line` lets an exception escape in
exactly two situations — an `AssertionError` when the stripped line
starts with `"deny "`, matches `re_acl` and the captured host field
fails `re_ipv4` (the assert on the ACL path), and a `ValueError` when
the stripped line starts with `http`/`ftp` and `urlparse` rejects its
netloc (unbalanced square bracket); every other line (for every org tag
and DNS callback) returns with at most log entries. -/
theorem parser_raise_iff (line : Str) :
    (insert_blklst_line line).isRaise = true ↔
      (isPre litDenySp (stripL line) = true ∧
        ∃ a ds, aclMatch (stripL line) = some (a, ds) ∧ ipv4Match a = false) ∨
      ((isPre litHttp (stripL line) || isPre litFtp (stripL line)) = true ∧
        urlSN (stripL line) = .error ()) := by
  unfold insert_blklst_line
  generalize stripL line = l
  cases l with
  | nil =>
    simp [PRes.isRaise, isPre, litDenySp_expand, litHttp_expand, litFtp_expand]
  | cons c cs =>
    by_cases hc : c = '#' ∨ c = '!'
    · have h1 : isPre litDenySp (c :: cs) = false := by
        rcases hc with hc | hc <;> subst hc <;>
          simp [litDenySp_expand, isPre]
      have h2 : isPre litHttp (c :: cs) = false := by
        rcases hc with hc | hc <;> subst hc <;>
          simp [litHttp_expand, isPre]
      have h3 : isPre litFtp (c :: cs) = false := by
        rcases hc with hc | hc <;> subst hc <;>
          simp [litFtp_expand, isPre]
      simp [hc, PRes.isRaise, h1, h2, h3]
    · by_cases hh : (isPre litHttp (c :: cs) || isPre litFtp (c :: cs)) = true
      · have hden : isPre litDenySp (c :: cs) = false := by
          rcases Bool.or_eq_true _ _ ▸ hh with h | h
          · rw [litHttp_expand] at h
            rw [litDenySp_expand]
            exact isPre_cons_ne (by rw [← isPre_head h]; decide)
          · rw [litFtp_expand] at h
            rw [litDenySp_expand]
            exact isPre_cons_ne (by rw [← isPre_head h]; decide)
        cases hu : urlSN (c :: cs) with
        | error e =>
          cases e
          simp [hc, hh, hu, PRes.isRaise, hden]
        | ok snl =>
          obtain ⟨sch, nl⟩ := snl
          by_cases hs : sch = litHttp ∨ sch = litHttps ∨ sch = litFtp
          · by_cases hi : ipv4Match nl = true
            · simp [hc, hh, hu, hs, hi, PRes.isRaise, hden]
            · simp [hc, hh, hu, hs, hi, PRes.isRaise, hden]
          · simp [hc, hh, hu, hs, PRes.isRaise, hden]
      · by_cases hd : isPre litDenySp (c :: cs) = true
        · cases ha : aclMatch (c :: cs) with
          | some ads =>
            obtain ⟨a, ds⟩ := ads
            by_cases hi : ipv4Match a = true
            · simp only [hc, if_false, hh, Bool.false_eq_true, hd, if_true, ha, hi,
                PRes.isRaise]
              constructor
              · intro hfalse
                exact absurd hfalse (by decide)
              · rintro (⟨_, a', ds', heq, hip'⟩ | ⟨hbad, _⟩)
                · cases heq
                  rw [hi] at hip'
                  exact absurd hip' (by decide)
                · exact absurd hbad (by simp [hh])
            · have hi' : ipv4Match a = false := by
                cases hx : ipv4Match a
                · rfl
                · exact absurd hx hi
              simp only [hc, if_false, hh, Bool.false_eq_true, hd, if_true, ha, hi',
                PRes.isRaise]
              constructor
              · intro _
                exact Or.inl ⟨trivial, a, ds, rfl, hi'⟩
              · intro _
                trivial
          | none =>
            simp [hc, hh, hd, ha, PRes.isRaise]
        · simp only [hc, if_false, hh, Bool.false_eq_true, hd]
          have hres : (PRes.isRaise
              (if (addrMatch (c :: cs)).1.isEmpty then PRes.unknownFmt
               else if ipv4Match (addrMatch (c :: cs)).1 then
                 PRes.insertIp (addrMatch (c :: cs)).1 (addrMatch (c :: cs)).2
               else PRes.dnsLookup (addrMatch (c :: cs)).1 (addrMatch (c :: cs)).2)) = false := by
            by_cases h1 : (addrMatch (c :: cs)).1.isEmpty = true
            · simp [h1, PRes.isRaise]
            · by_cases h2 : ipv4Match (addrMatch (c :: cs)).1 = true
              · simp [h1, h2, PRes.isRaise]
              · simp [h1, h2, PRes.isRaise]
          simp only [if_false] at hres ⊢
          rw [hres]
          simp [hd, hh]

/-- Witness for `parser_raise_iff`: a concrete ACL line with a hostname
host field raises. -/
theorem parser_raise_iff_wit :
    (insert_blklst_line ("deny ip host bad.example.org any log y".data)).isRaise
      = true :=
  (parser_raise_iff ("deny ip host bad.example.org any log y".data)).mpr
    (Or.inl ⟨by decide, ("bad.example.org".data), ("y".data), by decide, by decide⟩)
/-! ## Claim C4: parser classification closure -/

/-- C4 (counterexample): the non-empty, non-comment line `deny junk`
does not yield a registry insert, does not schedule a DNS lookup, and
does not produce an "unknown format" log entry — it falls through the
unmatched-`re_acl` branch silently, so the claimed three-way closure
fails. -/
theorem blklst_closure_cex :
    insert_blklst_line ("deny junk".data) = PRes.dropAcl ∧
      (PRes.dropAcl.isIns || PRes.dropAcl.isDns) = false ∧
      PRes.dropAcl ≠ PRes.unknownFmt := by decide

/-- C4 (amended): every non-empty, non-comment line is classified as
exactly one of: a registry insert, one scheduled DNS lookup, a silent
drop, or a raised exception (ACL assert / urlparse ValueError); the
"unknown format" catch-all is unreachable for such lines (the `\S+`
address group of `re_addr` always matches a stripped non-empty line),
and the silent drops are exactly the `http`/`ftp`-prefixed lines whose
parsed scheme is not `http`/`https`/`ftp` and the `deny `-prefixed
lines that fail the `re_acl` pattern — both dropped with no log entry
at all. -/
theorem blklst_classification (line : Str) (c : Char) (cs : Str)
    (hl : stripL line = c :: cs) (hcm : ¬(c = '#' ∨ c = '!')) :
    ((insert_blklst_line line).isIns = true ∨ (insert_blklst_line line).isDns = true ∨
      insert_blklst_line line = .dropUrl ∨ insert_blklst_line line = .dropAcl ∨
      (insert_blklst_line line).isRaise = true) ∧
    insert_blklst_line line ≠ .unknownFmt ∧
    (insert_blklst_line line = .dropUrl ↔
      (isPre litHttp (c :: cs) || isPre litFtp (c :: cs)) = true ∧
        ∃ sch nl, urlSN (c :: cs) = .ok (sch, nl) ∧
          ¬(sch = litHttp ∨ sch = litHttps ∨ sch = litFtp)) ∧
    (insert_blklst_line line = .dropAcl ↔
      (isPre litHttp (c :: cs) || isPre litFtp (c :: cs)) = false ∧
        isPre litDenySp (c :: cs) = true ∧ aclMatch (c :: cs) = none) := by
  have hcsp : isPySpace c = false := stripL_head_not_space hl
  by_cases hh : (isPre litHttp (c :: cs) || isPre litFtp (c :: cs)) = true
  · cases hu : urlSN (c :: cs) with
    | error e =>
      cases e
      have hval : insert_blklst_line line = .valueErr := by
        unfold insert_blklst_line
        rw [hl]
        simp [hcm, hh, hu]
      rw [hval]
      refine ⟨Or.inr (Or.inr (Or.inr (Or.inr rfl))), by simp, ?_, ?_⟩
      · constructor
        · intro hbad
          exact absurd hbad (by simp)
        · rintro ⟨_, sch, nl, heq, _⟩
          exact absurd heq (by simp)
      · constructor
        · intro hbad
          exact absurd hbad (by simp)
        · rintro ⟨hbad, _⟩
          rw [hh] at hbad
          exact absurd hbad (by simp)
    | ok snl =>
      obtain ⟨sch, nl⟩ := snl
      by_cases hs : sch = litHttp ∨ sch = litHttps ∨ sch = litFtp
      · have hmain : (insert_blklst_line line).isIns = true ∨
            (insert_blklst_line line).isDns = true := by
          by_cases hi : ipv4Match nl = true
          · refine Or.inl ?_
            have hval : insert_blklst_line line = .insertIp nl (stripL (c :: cs)) := by
              unfold insert_blklst_line
              rw [hl]
              simp [hcm, hh, hu, hs, hi]
            rw [hval]
            rfl
          · refine Or.inr ?_
            have hval : insert_blklst_line line = .dnsLookup nl (stripL (c :: cs)) := by
              unfold insert_blklst_line
              rw [hl]
              simp [hcm, hh, hu, hs, hi]
            rw [hval]
            rfl
        have hnot : ∀ x, insert_blklst_line line = x →
            (x.isIns = true ∨ x.isDns = true) := by
          intro x hx
          rw [hx] at hmain
          exact hmain
        refine ⟨?_, ?_, ?_, ?_⟩
        · rcases hmain with h | h
          · exact Or.inl h
          · exact Or.inr (Or.inl h)
        · intro hbad
          rcases hnot _ hbad with h | h <;> exact absurd h (by simp [PRes.isIns, PRes.isDns])
        · constructor
          · intro hbad
            rcases hnot _ hbad with h | h <;>
              exact absurd h (by simp [PRes.isIns, PRes.isDns])
          · rintro ⟨_, sch', nl', heq, hbad⟩
            cases heq
            exact absurd hs hbad
        · constructor
          · intro hbad
            rcases hnot _ hbad with h | h <;>
              exact absurd h (by simp [PRes.isIns, PRes.isDns])
          · rintro ⟨hbad, _⟩
            rw [hh] at hbad
            exact absurd hbad (by simp)
      · have hval : insert_blklst_line line = .dropUrl := by
          unfold insert_blklst_line
          rw [hl]
          simp [hcm, hh, hu, hs]
        rw [hval]
        refine ⟨Or.inr (Or.inr (Or.inl rfl)), by simp, ?_, ?_⟩
        · constructor
          · intro _
            exact ⟨hh, sch, nl, rfl, hs⟩
          · intro _
            rfl
        · constructor
          · intro hbad
            exact absurd hbad (by simp)
          · rintro ⟨hbad, _⟩
            rw [hh] at hbad
            exact absurd hbad (by simp)
  · have hh' : (isPre litHttp (c :: cs) || isPre litFtp (c :: cs)) = false := by
      cases hx : (isPre litHttp (c :: cs) || isPre litFtp (c :: cs))
      · rfl
      · exact absurd hx hh
    by_cases hd : isPre litDenySp (c :: cs) = true
    · cases ha : aclMatch (c :: cs) with
      | some ads =>
        obtain ⟨a, ds⟩ := ads
        have hmain : (insert_blklst_line line).isIns = true ∨
            (insert_blklst_line line).isRaise = true := by
          by_cases hi : ipv4Match a = true
          · refine Or.inl ?_
            have hval : insert_blklst_line line = .insertIp a ds := by
              unfold insert_blklst_line
              rw [hl]
              simp [hcm, hh, hd, ha, hi]
            rw [hval]
            rfl
          · refine Or.inr ?_
            have hval : insert_blklst_line line = .assertErr a := by
              unfold insert_blklst_line
              rw [hl]
              simp [hcm, hh, hd, ha, hi]
            rw [hval]
            rfl
        have hnot : ∀ x, insert_blklst_line line = x →
            (x.isIns = true ∨ x.isRaise = true) := by
          intro x hx
          rw [hx] at hmain
          exact hmain
        refine ⟨?_, ?_, ?_, ?_⟩
        · rcases hmain with h | h
          · exact Or.inl h
          · exact Or.inr (Or.inr (Or.inr (Or.inr h)))
        · intro hbad
          rcases hnot _ hbad with h | h <;>
            exact absurd h (by simp [PRes.isIns, PRes.isRaise])
        · constructor
          · intro hbad
            rcases hnot _ hbad with h | h <;>
              exact absurd h (by simp [PRes.isIns, PRes.isRaise])
          · rintro ⟨hbad, _⟩
            rw [hh'] at hbad
            exact absurd hbad (by simp)
        · constructor
          · intro hbad
            rcases hnot _ hbad with h | h <;>
              exact absurd h (by simp [PRes.isIns, PRes.isRaise])
          · rintro ⟨_, _, hbad⟩
            exact absurd hbad (by simp)
      | none =>
        have hval : insert_blklst_line line = .dropAcl := by
          unfold insert_blklst_line
          rw [hl]
          simp [hcm, hh, hd, ha]
        rw [hval]
        refine ⟨Or.inr (Or.inr (Or.inr (Or.inl rfl))), by simp, ?_, ?_⟩
        · constructor
          · intro hbad
            exact absurd hbad (by simp)
          · rintro ⟨hbad, _⟩
            rw [hh'] at hbad
            exact absurd hbad (by simp)
        · constructor
          · intro _
            exact ⟨hh', hd, rfl⟩
          · intro _
            rfl
    · have hd' : isPre litDenySp (c :: cs) = false := by
        cases hx : isPre litDenySp (c :: cs)
        · rfl
        · exact absurd hx hd
      have haddr : (addrMatch (c :: cs)).1.isEmpty = false := by
        simp [addrMatch, List.takeWhile_cons, hcsp]
      have hmain : (insert_blklst_line line).isIns = true ∨
          (insert_blklst_line line).isDns = true := by
        by_cases hi : ipv4Match (addrMatch (c :: cs)).1 = true
        · refine Or.inl ?_
          have hval : insert_blklst_line line =
              .insertIp (addrMatch (c :: cs)).1 (addrMatch (c :: cs)).2 := by
            unfold insert_blklst_line
            rw [hl]
            simp [hcm, hh, hd, haddr, hi]
          rw [hval]
          rfl
        · refine Or.inr ?_
          have hval : insert_blklst_line line =
              .dnsLookup (addrMatch (c :: cs)).1 (addrMatch (c :: cs)).2 := by
            unfold insert_blklst_line
            rw [hl]
            simp [hcm, hh, hd, haddr, hi]
          rw [hval]
          rfl
      have hnot : ∀ x, insert_blklst_line line = x →
          (x.isIns = true ∨ x.isDns = true) := by
        intro x hx
        rw [hx] at hmain
        exact hmain
      refine ⟨?_, ?_, ?_, ?_⟩
      · rcases hmain with h | h
        · exact Or.inl h
        · exact Or.inr (Or.inl h)
      · intro hbad
        rcases hnot _ hbad with h | h <;>
          exact absurd h (by simp [PRes.isIns, PRes.isDns])
      · constructor
        · intro hbad
          rcases hnot _ hbad with h | h <;>
            exact absurd h (by simp [PRes.isIns, PRes.isDns])
        · rintro ⟨hbad, _⟩
          rw [hh'] at hbad
          exact absurd hbad (by simp)
      · constructor
        · intro hbad
          rcases hnot _ hbad with h | h <;>
            exact absurd h (by simp [PRes.isIns, PRes.isDns])
        · rintro ⟨_, hbad, _⟩
          rw [hd'] at hbad
          exact absurd hbad (by simp)

/-- Witness for `blklst_classification` at the concrete line
`10.9.8.7   some note`. -/
theorem blklst_classification_wit :
    (insert_blklst_line ("10.9.8.7   some note".data)).isIns = true ∨
      (insert_blklst_line ("10.9.8.7   some note".data)).isDns = true ∨
      insert_blklst_line ("10.9.8.7   some note".data) = .dropUrl ∨
      insert_blklst_line ("10.9.8.7   some note".data) = .dropAcl ∨
      (insert_blklst_line ("10.9.8.7   some note".data)).isRaise = true :=
  (blklst_classification ("10.9.8.7   some note".data) '1' ("0.9.8.7   some note".data)
    (by decide) (by decide)).1

/-! ## Lemmas about the prefix order -/

theorem hi_ge_net (p : Pfx) : p.net ≤ p.hi := Nat.le_add_right _ _

theorem pBelow_trans {a b c : Pfx} (h1 : pBelow a b) (h2 : pBelow b c) :
    pBelow a c := by
  have := hi_ge_net b
  unfold pBelow at *
  omega

theorem pDisj_symm {a b : Pfx} (h : pDisj a b) : pDisj b a := h.symm

theorem netGt_iff {a b : Pfx} (hd : pDisj a b) : netGt a b = true ↔ pBelow b a := by
  have ha := hi_ge_net a
  have hb := hi_ge_net b
  unfold netGt
  simp only [Bool.or_eq_true, Bool.and_eq_true, decide_eq_true_eq]
  unfold pDisj pBelow at *
  constructor
  · rintro (h | ⟨h, _⟩)
    · rcases hd with hd | hd <;> omega
    · rcases hd with hd | hd <;> omega
  · intro h
    left
    omega

theorem netEq_false {a b : Pfx} (hd : pDisj a b) : netEq a b = false := by
  cases hx : netEq a b
  · rfl
  · exfalso
    rw [netEq, Bool.and_eq_true] at hx
    have heq : a.net = b.net := by simpa using hx.1
    have ha := hi_ge_net a
    have hb := hi_ge_net b
    unfold pDisj pBelow at hd
    rcases hd with hd | hd <;> omega

/-! ## The rotations preserve the node list and the search order -/

theorem nodesOf_skew (t : BTree) : nodesOf (skew t) = nodesOf t := by
  cases t with
  | nil => rfl
  | node lv k v l r =>
    cases l with
    | nil => rfl
    | node llv lk lval ll lr =>
      by_cases h : llv = lv
      · simp [skew, h, nodesOf, List.append_assoc]
      · simp [skew, h]

theorem nodesOf_splitN (t : BTree) : nodesOf (splitN t) = nodesOf t := by
  cases t with
  | nil => rfl
  | node lv k v l r =>
    cases r with
    | nil => rfl
    | node rlv rk rv rl rr =>
      by_cases h : rr.levelOf = lv
      · simp [splitN, h, nodesOf, List.append_assoc]
      · simp [splitN, h]

theorem ordT_skew {t : BTree} (h : ordT t) : ordT (skew t) := by
  cases t with
  | nil => exact h
  | node lv k v l r =>
    cases l with
    | nil => exact h
    | node llv lk lval ll lr =>
      by_cases hlv : llv = lv
      · have hskew : skew (BTree.node lv k v (BTree.node llv lk lval ll lr) r) =
            BTree.node llv lk lval ll (BTree.node lv k v lr r) := by
          simp [skew, hlv]
        rw [hskew]
        obtain ⟨⟨hll, hlr, hlll, hllr⟩, hOr, hbl, hbr⟩ := h
        have hlk_k : pBelow lk k := hbl (lk, lval) (by simp [nodesOf])
        refine ⟨hll, ⟨hlr, hOr, ?_, hbr⟩, hlll, ?_⟩
        · intro kv hkv
          exact hbl kv (by simp [nodesOf]; tauto)
        · intro kv hkv
          simp [nodesOf] at hkv
          rcases hkv with hkv | hkv | hkv
          · exact hllr kv hkv
          · rw [hkv]
            exact hlk_k
          · exact pBelow_trans hlk_k (hbr kv hkv)
      · have hskew : skew (BTree.node lv k v (BTree.node llv lk lval ll lr) r) =
            BTree.node lv k v (BTree.node llv lk lval ll lr) r := by
          simp [skew, hlv]
        rw [hskew]
        exact h

theorem ordT_splitN {t : BTree} (h : ordT t) : ordT (splitN t) := by
  cases t with
  | nil => exact h
  | node lv k v l r =>
    cases r with
    | nil => exact h
    | node rlv rk rv rl rr =>
      by_cases hlv : rr.levelOf = lv
      · have hsp : splitN (BTree.node lv k v l (BTree.node rlv rk rv rl rr)) =
            BTree.node (rlv + 1) rk rv (BTree.node lv k v l rl) rr := by
          simp [splitN, hlv]
        rw [hsp]
        obtain ⟨hOl, ⟨hrl, hrr, hrlb, hrrb⟩, hbl, hbr⟩ := h
        have hk_rk : pBelow k rk := hbr (rk, rv) (by simp [nodesOf])
        refine ⟨⟨hOl, hrl, hbl, ?_⟩, hrr, ?_, hrrb⟩
        · intro kv hkv
          exact hbr kv (by simp [nodesOf]; tauto)
        · intro kv hkv
          simp [nodesOf] at hkv
          rcases hkv with hkv | hkv | hkv
          · exact pBelow_trans (hbl kv hkv) hk_rk
          · rw [hkv]
            exact hk_rk
          · exact hrlb kv hkv
      · have hsp : splitN (BTree.node lv k v l (BTree.node rlv rk rv rl rr)) =
            BTree.node lv k v l (BTree.node rlv rk rv rl rr) := by
          simp [splitN, hlv]
        rw [hsp]
        exact h

/-! ## Insertion: node list and search order -/

theorem mem_insAux (t : BTree) (k : Pfx) (v : Str) :
    (∀ kv ∈ nodesOf t, pDisj kv.1 k) → ∀ x : Pfx × Str,
      (x ∈ nodesOf (insAux t k v) ↔ x ∈ nodesOf t ∨ x = (k, v)) := by
  induction t with
  | nil =>
    intro _ x
    simp [insAux, nodesOf]
  | node lv key val l r ihl ihr =>
    intro hfresh x
    have hdk : pDisj key k := hfresh (key, val) (by simp [nodesOf])
    have hne : netEq k key = false := netEq_false (pDisj_symm hdk)
    by_cases hg : netGt k key = true
    · have hins : insAux (BTree.node lv key val l r) k v =
          BTree.node lv key val l
            (if r = BTree.nil then BTree.node 1 k v BTree.nil BTree.nil
             else splitN (skew (insAux r k v))) := by
        simp [insAux, hne, hg]
      rw [hins]
      by_cases hr : r = BTree.nil
      · subst hr
        simp [nodesOf]
        tauto
      · rw [if_neg hr]
        have hfr : ∀ kv ∈ nodesOf r, pDisj kv.1 k := fun kv hkv =>
          hfresh kv (by simp [nodesOf]; tauto)
        simp only [nodesOf, List.mem_append, List.mem_cons, nodesOf_splitN, nodesOf_skew,
          ihr hfr x]
        tauto
    · have hins : insAux (BTree.node lv key val l r) k v =
          BTree.node lv key val
            (if l = BTree.nil then BTree.node 1 k v BTree.nil BTree.nil
             else splitN (skew (insAux l k v))) r := by
        simp [insAux, hne, hg]
      rw [hins]
      by_cases hl : l = BTree.nil
      · subst hl
        simp [nodesOf]
        tauto
      · rw [if_neg hl]
        have hfl : ∀ kv ∈ nodesOf l, pDisj kv.1 k := fun kv hkv =>
          hfresh kv (by simp [nodesOf]; tauto)
        simp only [nodesOf, List.mem_append, List.mem_cons, nodesOf_splitN, nodesOf_skew,
          ihl hfl x]
        tauto

theorem ordT_insAux (t : BTree) (k : Pfx) (v : Str) :
    ordT t → (∀ kv ∈ nodesOf t, pDisj kv.1 k) → ordT (insAux t k v) := by
  induction t with
  | nil =>
    intro _ _
    exact ⟨trivial, trivial, by simp [nodesOf], by simp [nodesOf]⟩
  | node lv key val l r ihl ihr =>
    intro hord hfresh
    obtain ⟨hOl, hOr, hbl, hbr⟩ := hord
    have hdk : pDisj key k := hfresh (key, val) (by simp [nodesOf])
    have hne : netEq k key = false := netEq_false (pDisj_symm hdk)
    by_cases hg : netGt k key = true
    · have hbelow : pBelow key k := (netGt_iff (pDisj_symm hdk)).mp hg
      have hins : insAux (BTree.node lv key val l r) k v =
          BTree.node lv key val l
            (if r = BTree.nil then BTree.node 1 k v BTree.nil BTree.nil
             else splitN (skew (insAux r k v))) := by
        simp [insAux, hne, hg]
      rw [hins]
      by_cases hr : r = BTree.nil
      · subst hr
        rw [if_pos rfl]
        refine ⟨hOl, ⟨trivial, trivial, by simp [nodesOf], by simp [nodesOf]⟩, hbl, ?_⟩
        intro kv hkv
        simp [nodesOf] at hkv
        rw [hkv]
        exact hbelow
      · rw [if_neg hr]
        have hfr : ∀ kv ∈ nodesOf r, pDisj kv.1 k := fun kv hkv =>
          hfresh kv (by simp [nodesOf]; tauto)
        refine ⟨hOl, ordT_splitN (ordT_skew (ihr hOr hfr)), hbl, ?_⟩
        intro kv hkv
        rw [nodesOf_splitN, nodesOf_skew, mem_insAux r k v hfr kv] at hkv
        rcases hkv with hkv | hkv
        · exact hbr kv hkv
        · rw [hkv]
          exact hbelow
    · have hbelow : pBelow k key := by
        rcases pDisj_symm hdk with hx | hx
        · exact hx
        · exact absurd ((netGt_iff (pDisj_symm hdk)).mpr hx) hg
      have hins : insAux (BTree.node lv key val l r) k v =
          BTree.node lv key val
            (if l = BTree.nil then BTree.node 1 k v BTree.nil BTree.nil
             else splitN (skew (insAux l k v))) r := by
        simp [insAux, hne, hg]
      rw [hins]
      by_cases hl : l = BTree.nil
      · subst hl
        rw [if_pos rfl]
        refine ⟨⟨trivial, trivial, by simp [nodesOf], by simp [nodesOf]⟩, hOr, ?_, hbr⟩
        intro kv hkv
        simp [nodesOf] at hkv
        rw [hkv]
        exact hbelow
      · rw [if_neg hl]
        have hfl : ∀ kv ∈ nodesOf l, pDisj kv.1 k := fun kv hkv =>
          hfresh kv (by simp [nodesOf]; tauto)
        refine ⟨ordT_splitN (ordT_skew (ihl hOl hfl)), hOr, ?_, hbr⟩
        intro kv hkv
        rw [nodesOf_splitN, nodesOf_skew, mem_insAux l k v hfl kv] at hkv
        rcases hkv with hkv | hkv
        · exact hbl kv hkv
        · rw [hkv]
          exact hbelow

theorem mem_insertT (t : BTree) (k : Pfx) (v : Str)
    (hfresh : ∀ kv ∈ nodesOf t, pDisj kv.1 k) (x : Pfx × Str) :
    x ∈ nodesOf (insertT t k v) ↔ x ∈ nodesOf t ∨ x = (k, v) := by
  by_cases ht : t = BTree.nil
  · subst ht
    simp [insertT, nodesOf]
  · rw [insertT, if_neg ht, nodesOf_splitN, nodesOf_skew]
    exact mem_insAux t k v hfresh x

theorem ordT_insertT (t : BTree) (k : Pfx) (v : Str)
    (hord : ordT t) (hfresh : ∀ kv ∈ nodesOf t, pDisj kv.1 k) :
    ordT (insertT t k v) := by
  by_cases ht : t = BTree.nil
  · subst ht
    exact ⟨trivial, trivial, by simp [nodesOf], by simp [nodesOf]⟩
  · rw [insertT, if_neg ht]
    exact ordT_splitN (ordT_skew (ordT_insAux t k v hord hfresh))

/-! ## Building the tree from a disjoint prefix list -/

theorem buildT_go (ps : List (Pfx × Str)) :
    ∀ t : BTree, ordT t →
      (∀ kv ∈ nodesOf t, ∀ ab ∈ ps, pDisj kv.1 ab.1) →
      ps.Pairwise (fun a b => pDisj a.1 b.1) →
      ordT (ps.foldl (fun t pv => insertT t pv.1 pv.2) t) ∧
        ∀ x, x ∈ nodesOf (ps.foldl (fun t pv => insertT t pv.1 pv.2) t) ↔
          x ∈ nodesOf t ∨ x ∈ ps := by
  induction ps with
  | nil =>
    intro t h1 _ _
    exact ⟨h1, by simp⟩
  | cons pv ps ih =>
    intro t h1 h2 h3
    have hfresh : ∀ kv ∈ nodesOf t, pDisj kv.1 pv.1 := fun kv hkv =>
      h2 kv hkv pv (List.mem_cons_self _ _)
    have hstep : ordT (insertT t pv.1 pv.2) := ordT_insertT t pv.1 pv.2 h1 hfresh
    have hmem : ∀ x, x ∈ nodesOf (insertT t pv.1 pv.2) ↔ x ∈ nodesOf t ∨ x = pv := by
      intro x
      rw [mem_insertT t pv.1 pv.2 hfresh x]
    have hpair := List.pairwise_cons.mp h3
    have h2' : ∀ kv ∈ nodesOf (insertT t pv.1 pv.2), ∀ ab ∈ ps, pDisj kv.1 ab.1 := by
      intro kv hkv ab hab
      rcases (hmem kv).mp hkv with h | h
      · exact h2 kv h ab (List.mem_cons_of_mem _ hab)
      · rw [h]
        exact hpair.1 ab hab
    obtain ⟨ho, hm⟩ := ih (insertT t pv.1 pv.2) hstep h2' hpair.2
    refine ⟨ho, fun x => ?_⟩
    rw [List.foldl_cons, hm x, hmem x, List.mem_cons]
    tauto

/-! ## Lookup correctness -/

theorem chk_sound (t : BTree) (x : Nat) :
    ∀ kv, chk_ip t x = some kv → kv ∈ nodesOf t ∧ containsIp kv.1 x = true := by
  induction t with
  | nil =>
    intro kv h
    simp [chk_ip] at h
  | node lv k v l r ihl ihr =>
    intro kv h
    simp only [chk_ip] at h
    by_cases hc : containsIp k x = true
    · rw [if_pos hc] at h
      cases h
      exact ⟨by simp [nodesOf], hc⟩
    · rw [if_neg hc] at h
      by_cases hq : qGt x k = true
      · rw [if_pos hq] at h
        obtain ⟨hmem, hcont⟩ := ihr kv h
        refine ⟨?_, hcont⟩
        simp [nodesOf]
        tauto
      · rw [if_neg hq] at h
        obtain ⟨hmem, hcont⟩ := ihl kv h
        refine ⟨?_, hcont⟩
        simp [nodesOf]
        tauto

theorem chk_complete (t : BTree) (x : Nat) :
    ordT t → ∀ kv ∈ nodesOf t, containsIp kv.1 x = true → chk_ip t x = some kv := by
  induction t with
  | nil =>
    intro _ kv h
    simp [nodesOf] at h
  | node lv k v l r ihl ihr =>
    intro hord kv hmem hcont
    obtain ⟨hOl, hOr, hbl, hbr⟩ := hord
    have hcont' : kv.1.net ≤ x ∧ x ≤ kv.1.hi := by
      simpa [containsIp, Bool.and_eq_true, decide_eq_true_eq] using hcont
    have hk := hi_ge_net k
    simp only [chk_ip]
    simp only [nodesOf, List.mem_append, List.mem_cons] at hmem
    by_cases hc : containsIp k x = true
    · rw [if_pos hc]
      have hc' : k.net ≤ x ∧ x ≤ k.hi := by
        simpa [containsIp, Bool.and_eq_true, decide_eq_true_eq] using hc
      rcases hmem with hmem | hmem | hmem
      · exfalso
        have hb := hbl kv hmem
        unfold pBelow at hb
        omega
      · rw [hmem]
      · exfalso
        have hb := hbr kv hmem
        unfold pBelow at hb
        omega
    · rw [if_neg hc]
      have hc' : ¬(k.net ≤ x ∧ x ≤ k.hi) := by
        intro hx
        exact hc (by simp [containsIp, Bool.and_eq_true, decide_eq_true_eq]; omega)
      by_cases hq : qGt x k = true
      · rw [if_pos hq]
        have hq' : k.net < x ∨ (x = k.net ∧ maskOf k < 2 ^ 32 - 1) := by
          simpa [qGt, Bool.or_eq_true, Bool.and_eq_true, decide_eq_true_eq] using hq
        have hxk : k.hi < x := by
          rcases hq' with h | ⟨h, _⟩
          · by_contra hh
            exact hc' ⟨by omega, by omega⟩
          · exact absurd ⟨by omega, by omega⟩ hc'
        refine ihr hOr kv ?_ hcont
        rcases hmem with hmem | hmem | hmem
        · exfalso
          have hb := hbl kv hmem
          unfold pBelow at hb
          omega
        · exfalso
          rw [hmem] at hcont'
          simp at hcont'
          omega
        · exact hmem
      · rw [if_neg hq]
        have hq' : ¬(k.net < x ∨ (x = k.net ∧ maskOf k < 2 ^ 32 - 1)) := by
          intro hxx
          exact hq (by simpa [qGt, Bool.or_eq_true, Bool.and_eq_true,
            decide_eq_true_eq] using hxx)
        have hxlt : x < k.net := by
          have h1 : ¬k.net < x := fun hh => hq' (Or.inl hh)
          rcases Nat.lt_or_ge x k.net with hlt | hge
          · exact hlt
          · exfalso
            exact hc' ⟨by omega, by omega⟩
        refine ihl hOl kv ?_ hcont
        rcases hmem with hmem | hmem | hmem
        · exact hmem
        · exfalso
          rw [hmem] at hcont'
          simp at hcont'
          omega
        · exfalso
          have hb := hbr kv hmem
          unfold pBelow at hb
          omega

/-! ## Claim C1: prefix index coverage -/

/-- C1: inserting any list of pairwise non-overlapping valid IPv4
prefixes with their ASNs into the tree (in any order — the list is
arbitrary), `chk_ip` returns the node carrying exactly the (prefix,
ASN) pair of the unique inserted prefix containing the queried address,
and returns `none` when the address lies outside the union of the
inserted prefixes. -/
theorem chk_ip_coverage (ps : List (Pfx × Str)) (x : Nat)
    (_hval : ∀ pv ∈ ps, validPfx pv.1) (_hx : x < 2 ^ 32)
    (hdisj : ps.Pairwise fun a b => pDisj a.1 b.1) :
    (∀ pv ∈ ps, containsIp pv.1 x = true → chk_ip (buildT ps) x = some pv) ∧
      ((∀ pv ∈ ps, containsIp pv.1 x = false) → chk_ip (buildT ps) x = none) := by
  obtain ⟨hord, hmem⟩ := buildT_go ps BTree.nil trivial (by simp [nodesOf]) hdisj
  constructor
  · intro pv hpv hcont
    refine chk_complete (buildT ps) x hord pv ?_ hcont
    rw [buildT, hmem pv]
    simp [nodesOf, hpv]
  · intro hnone
    cases hres : chk_ip (buildT ps) x with
    | none => rfl
    | some kv =>
      obtain ⟨hkv, hcont⟩ := chk_sound (buildT ps) x kv hres
      rw [buildT, hmem kv] at hkv
      simp [nodesOf] at hkv
      have hfalse := hnone kv hkv
      rw [hcont] at hfalse
      exact absurd hfalse (by simp)

/-- Witness for `chk_ip_coverage`: two disjoint prefixes 10.0.0.0/24
(ASN 64500) and 192.168.0.0/16 (ASN 64501); looking up 10.0.0.5 finds
the first node, and by the same theorem 10.99.0.1 (in no prefix) yields
`none`. -/
theorem chk_ip_coverage_wit :
    chk_ip (buildT [(⟨167772160, 24⟩, ("64500".data)),
        (⟨3232235520, 16⟩, ("64501".data))]) 167772165 =
      some (⟨167772160, 24⟩, ("64500".data)) ∧
    chk_ip (buildT [(⟨167772160, 24⟩, ("64500".data)),
        (⟨3232235520, 16⟩, ("64501".data))]) 174260225 = none :=
  ⟨(chk_ip_coverage _ 167772165 (by decide) (by decide) (by decide)).1 _
      (by decide) (by decide),
    (chk_ip_coverage _ 174260225 (by decide) (by decide) (by decide)).2
      (by decide)⟩
